import Mathlib

/-!
Verification of the Dense Tick Format (DTF) codec (`src/dtf.rs`).

Modelling conventions (shallow embedding):
- A file is a `List Nat` of bytes (each byte < 256 in well-formed data).
- Machine integers (`u8`/`u16`/`u32`/`u64`) are `Nat` with explicit `% 2^w`
  wherever the Rust code can wrap; wrapping (release-mode two's-complement)
  semantics is used for arithmetic overflow.
- `f32` fields (`price`, `size`) are modelled by their 32-bit patterns as
  `Nat < 2^32`; `write_f32`/`read_f32` move those bit patterns to and from
  four big-endian bytes unchanged.
- Rust panics (failed `assert!`, `expect`, `unwrap`, out-of-bounds indexing)
  are modelled by `Option.none`; strings (the symbol) are modelled as byte
  lists restricted to the ASCII fragment, so that `str::from_utf8(..).unwrap()`
  on stored symbol bytes cannot fail.
- Buffered writers/readers with absolute seeks are modelled by building and
  indexing the full byte list; the gap between the 26 written header bytes
  and the main-section offset 80 is zero-filled, as `seek` past the end of a
  freshly created file produces zeros.
-/

namespace DTF

/-- One market event (`struct Update` in `dtf.rs`): `ts : u32`, `seq : u16`,
two flags, and the 32-bit patterns of the `f32` price and size. -/
structure Update where
  ts : Nat
  seq : Nat
  is_trade : Bool
  is_bid : Bool
  price : Nat
  size : Nat
deriving DecidableEq, Repr

/-- Field bounds of the Rust machine-integer types: `ts`, `price`, `size` are
32-bit values and `seq` is a 16-bit value. -/
def Update.WF (u : Update) : Prop :=
  u.ts < 4294967296 ∧ u.seq < 65536 ∧ u.price < 4294967296 ∧ u.size < 4294967296

instance (u : Update) : Decidable u.WF := by
  unfold Update.WF; infer_instance

/-- `static MAGIC_VALUE : &[u8]` — the five fixed magic bytes. -/
def MAGIC_VALUE : List Nat := [0x44, 0x54, 0x46, 0x90, 0x01]

/-- `write_u16::<BigEndian>`: the two big-endian bytes of `n`'s low 16 bits. -/
def u16BE (n : Nat) : List Nat := [n / 256 % 256, n % 256]

/-- `write_u32::<BigEndian>`: the four big-endian bytes of `n`'s low 32 bits. -/
def u32BE (n : Nat) : List Nat :=
  [n / 16777216 % 256, n / 65536 % 256, n / 256 % 256, n % 256]

/-- `write_u64::<BigEndian>`: the eight big-endian bytes of `n`'s low 64 bits. -/
def u64BE (n : Nat) : List Nat :=
  [n / 72057594037927936 % 256, n / 281474976710656 % 256,
   n / 1099511627776 % 256, n / 4294967296 % 256,
   n / 16777216 % 256, n / 65536 % 256, n / 256 % 256, n % 256]

/-- `bool as u8`. -/
def boolByte : Bool → Nat
  | true => 1
  | false => 0

/-- `Update::serialize`: one delta record body (without its leading flag byte):
`(ts - ref_ts) as u16` (two bytes), `(seq - ref_seq) as u8`, the two flags,
then the four price bytes and four size bytes.  The subtractions are u32/u16
wrapping subtractions, then truncating casts. -/
def Update.serialize (u : Update) (ref_ts ref_seq : Nat) : List Nat :=
  u16BE ((u.ts + 4294967296 - ref_ts % 4294967296) % 4294967296) ++
  [(u.seq + 65536 - ref_seq % 65536) % 65536 % 256,
   boolByte u.is_trade, boolByte u.is_bid] ++
  u32BE u.price ++ u32BE u.size

/-- `get_max_ts`: fold over the updates keeping the largest `ts`, starting
from 0. -/
def get_max_ts (updates : List Update) : Nat :=
  updates.foldl (fun m u => if u.ts > m then u.ts else m) 0

/-- `write_symbol`: `assert!(symbol.len() <= SYMBOL_LEN)` (panic modelled as
`none`), then the symbol right-padded with spaces (byte 32) to 9 bytes. -/
def write_symbol (symbol : List Nat) : Option (List Nat) :=
  if symbol.length ≤ 9 then some (symbol ++ List.replicate (9 - symbol.length) 32)
  else none

/-- `write_metadata`: the record count as a big-endian u64 followed by the
maximum timestamp as a big-endian u32. -/
def write_metadata (ups : List Update) : List Nat :=
  u64BE ups.length ++ u32BE (get_max_ts ups)

/-- `write_reference`: flag byte 1, then `ref_ts : u32`, `ref_seq : u16`, and
the batch length `len : u16`, all big-endian. -/
def write_reference (ref_ts ref_seq len : Nat) : List Nat :=
  1 :: (u32BE ref_ts ++ u16BE ref_seq ++ u16BE len)

/-- The loop body of `write_main`.  State: current reference `(ref_ts,
ref_seq)`, the `count : u16` of records buffered for the current batch, and
the buffered delta-record bytes `buf`.  For each update the flush test is the
source's `count != 0 && elem.ts >= ref_ts + 65535 || elem.seq >= ref_seq + 255`
under Rust precedence — `&&` binds tighter than `||` — with wrapping `u32`/`u16`
additions.  A flush writes the reference record for the finished batch followed
by `buf`, then restarts the batch at the current element; either way the
current element is appended to the (possibly fresh) buffer with its flag byte 0
and `count` is incremented (`u16` wrap-around). -/
def write_main_loop (ref_ts ref_seq count : Nat) (buf : List Nat) :
    List Update → List Nat
  | [] => write_reference ref_ts ref_seq count ++ buf
  | elem :: rest =>
    if (count ≠ 0 ∧ (ref_ts + 65535) % 4294967296 ≤ elem.ts) ∨
        (ref_seq + 255) % 65536 ≤ elem.seq then
      write_reference ref_ts ref_seq count ++ buf ++
        write_main_loop elem.ts elem.seq 1
          (0 :: Update.serialize elem elem.ts elem.seq) rest
    else
      write_main_loop ref_ts ref_seq ((count + 1) % 65536)
        (buf ++ 0 :: Update.serialize elem ref_ts ref_seq) rest

/-- `write_main`: the main section's bytes.  `ups[0]` on an empty slice
panics (`none`); otherwise the reference starts at the first update and the
loop runs over the whole slice, flushing the final batch unconditionally. -/
def write_main (ups : List Update) : Option (List Nat) :=
  match ups with
  | [] => none
  | u0 :: _ => some (write_main_loop u0.ts u0.seq 0 [] ups)

/-- `encode`: magic bytes, padded symbol, metadata, a zero-filled gap up to
the main-section offset 80, then the main section.  A failing `write_symbol`
assertion or the `ups[0]` panic of `write_main` aborts the whole call. -/
def encode (symbol : List Nat) (ups : List Update) : Option (List Nat) :=
  match write_symbol symbol, write_main ups with
  | some sym9, some main =>
      some (MAGIC_VALUE ++ sym9 ++ write_metadata ups ++ List.replicate 54 0 ++ main)
  | _, _ => none

/-- `read_u8`: one byte off the stream; end of stream is a read failure. -/
def readU8 : List Nat → Option (Nat × List Nat)
  | [] => none
  | b :: rest => some (b, rest)

/-- `read_u16::<BigEndian>`. -/
def readU16 : List Nat → Option (Nat × List Nat)
  | b0 :: b1 :: rest => some (b0 * 256 + b1, rest)
  | _ => none

/-- `read_u32::<BigEndian>`. -/
def readU32 : List Nat → Option (Nat × List Nat)
  | b0 :: b1 :: b2 :: b3 :: rest =>
      some (((b0 * 256 + b1) * 256 + b2) * 256 + b3, rest)
  | _ => none

/-- `read_u64::<BigEndian>`. -/
def readU64 : List Nat → Option (Nat × List Nat)
  | b0 :: b1 :: b2 :: b3 :: b4 :: b5 :: b6 :: b7 :: rest =>
      some (((((((b0 * 256 + b1) * 256 + b2) * 256 + b3) * 256 + b4) * 256 + b5)
        * 256 + b6) * 256 + b7, rest)
  | _ => none

/-- The record loop of `read_one_batch`: read `how_many` delta records, each
a flag byte that is asserted to be 0, then `dts : u16`, `dseq : u8`, the two
flag bytes, and the price and size words; the absolute fields are rebuilt with
wrapping u32/u16 additions `dts + ref_ts` and `dseq + ref_seq`. -/
def read_delta_records (ref_ts ref_seq : Nat) :
    Nat → List Nat → Option (List Update × List Nat)
  | 0, bytes => some ([], bytes)
  | n + 1, bytes => do
    let (flag, bytes) ← readU8 bytes
    if flag = 0 then
      let (dts, bytes) ← readU16 bytes
      let (dseq, bytes) ← readU8 bytes
      let (btrade, bytes) ← readU8 bytes
      let (bbid, bytes) ← readU8 bytes
      let (price, bytes) ← readU32 bytes
      let (size, bytes) ← readU32 bytes
      let (rest, bytes) ← read_delta_records ref_ts ref_seq n bytes
      some (⟨(dts + ref_ts) % 4294967296, (dseq + ref_seq) % 65536,
        btrade == 1, bbid == 1, price, size⟩ :: rest, bytes)
    else none

/-- `read_one_batch`: read the flag byte; if it marks a reference, read the
reference header (`ref_ts : u32`, `ref_seq : u16`, `how_many : u16`) and then
its `how_many` delta records; otherwise the reference fields stay 0, no
records are read, and the empty batch is returned with the stream advanced
past the flag byte. -/
def read_one_batch (bytes : List Nat) : Option (List Update × List Nat) := do
  let (flag, bytes) ← readU8 bytes
  if flag = 1 then
    let (ref_ts, bytes) ← readU32 bytes
    let (ref_seq, bytes) ← readU16 bytes
    let (how_many, bytes) ← readU16 bytes
    read_delta_records ref_ts ref_seq how_many bytes
  else
    some ([], bytes)

/-- `read_symbol`: the 9 symbol bytes at offset 5, interpreted as text by
`str::from_utf8(..).unwrap()` — modelled on the ASCII fragment, where the
conversion cannot panic; a file too short to hold the symbol or holding
non-ASCII symbol bytes is a failure. -/
def read_symbol (bytes : List Nat) : Option (List Nat) :=
  if ((bytes.drop 5).take 9).length = 9 ∧ ∀ b ∈ (bytes.drop 5).take 9, b < 128 then
    some ((bytes.drop 5).take 9)
  else none

/-- `read_len`: the big-endian u64 record count at offset 14;
`expect` on a short file is a panic (`none`). -/
def read_len (bytes : List Nat) : Option Nat :=
  (readU64 (bytes.drop 14)).map (·.1)

/-- `read_max_ts`: the big-endian u32 maximum timestamp at offset 22. -/
def read_max_ts (bytes : List Nat) : Option Nat :=
  (readU32 (bytes.drop 22)).map (·.1)

/-- `read_first_batch`: seek to the main-section offset 80 and decode exactly
one batch. -/
def read_first_batch (bytes : List Nat) : Option (List Update) :=
  (read_one_batch (bytes.drop 80)).map (·.1)

/-- `read_first`: the first record of the first batch; `batch[0]` on an empty
batch panics (`none`). -/
def read_first (bytes : List Nat) : Option Update :=
  (read_first_batch bytes).bind (fun v => v[0]?)

/-- `read_min_ts`: the timestamp of the first record. -/
def read_min_ts (bytes : List Nat) : Option Nat :=
  (read_first bytes).map (·.ts)

/-- The scan loop of `decode`: read a flag byte (a read failure ends the scan
normally); on a reference flag, seek back one byte, read one whole batch and
append its updates, then continue after it.  The loop advances by at least one
byte per iteration, so the remaining byte count is used as structural fuel;
`decode` supplies exactly the stream length, which the lemmas below show is
always sufficient. -/
def decode_go : Nat → List Nat → Option (List Update)
  | _, [] => some []
  | 0, _ :: _ => none
  | fuel + 1, b :: rest =>
    if b = 1 then
      match read_one_batch (b :: rest) with
      | none => none
      | some (batch, rest2) =>
        match decode_go fuel rest2 with
        | none => none
        | some more => some (batch ++ more)
    else decode_go fuel rest

/-- `decode`: check the magic bytes (`panic!` on a mismatch), read the header
fields (symbol, record count, max timestamp — the values are discarded but a
failed read panics), then scan the main section from offset 80 batch by
batch. -/
def decode (bytes : List Nat) : Option (List Update) :=
  if bytes.take 5 = MAGIC_VALUE then
    match read_symbol bytes, read_len bytes, read_max_ts bytes with
    | some _, some _, some _ => decode_go (bytes.drop 80).length (bytes.drop 80)
    | _, _, _ => none
  else none

/-- Stable insertion of an earlier element into an already sorted run of
later elements: it goes in front of the first member whose `seq` is not
smaller. -/
def insertBySeq (u : Update) : List Update → List Update
  | [] => [u]
  | v :: vs => if v.seq < u.seq then v :: insertBySeq u vs else u :: v :: vs

/-- `ups.sort()` in `append`: a stable sort under the `Ord` instance of
`Update`, which compares by `seq` alone.  A stable sort for a fixed total
preorder is unique as a function on lists, so this structurally recursive
insertion sort computes exactly what the source's stable sort computes. -/
def sortUpdates (ups : List Update) : List Update :=
  ups.foldr insertBySeq []

/-- `append` (the `//TODO` stub): open and magic-check the file, read the
symbol, read the header maximum timestamp into `max_ts` — immediately
shadowed by a second `let max_ts = read_min_ts(..)`, the first record's
timestamp — sort the new updates, and panic (`none`) when their minimum
timestamp is not strictly greater than that shadowed value; otherwise return
the computed new maximum timestamp.  Nothing is ever written. -/
def append (bytes : List Nat) (ups : List Update) : Option Nat :=
  if bytes.take 5 = MAGIC_VALUE then
    match read_symbol bytes, read_max_ts bytes, read_min_ts bytes with
    | some _, some _, some max_ts =>
      match sortUpdates ups with
      | [] => none
      | s0 :: tl =>
        if s0.ts ≤ max_ts then none else some ((tl.getLastD s0).ts)
    | _, _, _ => none
  else none

/-- The fully guarded reading of the flush test, in which the `count != 0`
guard applies to both overflow checks.  Modelled from the spec: identical to
`write_main_loop` except for the parenthesization
`count != 0 && (ts-overflow || seq-overflow)`. -/
def write_main_guarded_loop (ref_ts ref_seq count : Nat) (buf : List Nat) :
    List Update → List Nat
  | [] => write_reference ref_ts ref_seq count ++ buf
  | elem :: rest =>
    if count ≠ 0 ∧ ((ref_ts + 65535) % 4294967296 ≤ elem.ts ∨
        (ref_seq + 255) % 65536 ≤ elem.seq) then
      write_reference ref_ts ref_seq count ++ buf ++
        write_main_guarded_loop elem.ts elem.seq 1
          (0 :: Update.serialize elem elem.ts elem.seq) rest
    else
      write_main_guarded_loop ref_ts ref_seq ((count + 1) % 65536)
        (buf ++ 0 :: Update.serialize elem ref_ts ref_seq) rest

/-- `write_main` under the fully guarded flush test. -/
def write_main_guarded (ups : List Update) : Option (List Nat) :=
  match ups with
  | [] => none
  | u0 :: _ => some (write_main_guarded_loop u0.ts u0.seq 0 [] ups)

/-- The delta-record bytes of a batch: each member with its flag byte 0
followed by its serialized body, relative to the batch reference. -/
def deltaBytes (ref_ts ref_seq : Nat) : List Update → List Nat
  | [] => []
  | e :: es => 0 :: Update.serialize e ref_ts ref_seq ++ deltaBytes ref_ts ref_seq es

/-- Membership of one update in the relative-encoding range of a reference:
both deltas are nonnegative and fit their wire widths. -/
def fitsRef (ref_ts ref_seq : Nat) (u : Update) : Prop :=
  ref_ts ≤ u.ts ∧ u.ts ≤ ref_ts + 65534 ∧ ref_seq ≤ u.seq ∧ u.seq ≤ ref_seq + 254

instance (ref_ts ref_seq : Nat) (u : Update) : Decidable (fitsRef ref_ts ref_seq u) := by
  unfold fitsRef; infer_instance

/-- The input discipline of the encoder: strictly increasing sequence numbers
and non-decreasing timestamps. -/
def sortedUps (l : List Update) : Prop :=
  List.Pairwise (fun a b => a.seq < b.seq ∧ a.ts ≤ b.ts) l

instance (l : List Update) : Decidable (sortedUps l) := by
  unfold sortedUps; exact List.instDecidablePairwise l

/-- The specification-side maximum timestamp: the largest `ts` field, 0 for an
empty list. -/
def listMaxTs (ups : List Update) : Nat :=
  (ups.map Update.ts).foldr Nat.max 0

end DTF


namespace DTF

theorem boolByte_beq (b : Bool) : (boolByte b == 1) = b := by cases b <;> rfl

theorem readU8_cons (b : Nat) (t : List Nat) : readU8 (b :: t) = some (b, t) := rfl

theorem readU16_u16BE (n : Nat) (t : List Nat) :
    readU16 (u16BE n ++ t) = some (n % 65536, t) := by
  simp [u16BE, readU16]
  omega

theorem readU32_u32BE (n : Nat) (t : List Nat) :
    readU32 (u32BE n ++ t) = some (n % 4294967296, t) := by
  simp [u32BE, readU32]
  omega

theorem readU64_u64BE (n : Nat) (t : List Nat) :
    readU64 (u64BE n ++ t) = some (n % 18446744073709551616, t) := by
  simp [u64BE, readU64]
  omega

theorem read_delta_records_deltaBytes (ref_ts ref_seq : Nat)
    (hrt : ref_ts < 4294967296) (hrs : ref_seq < 65536) :
    ∀ (elems : List Update) (tail : List Nat),
      (∀ e ∈ elems, e.WF ∧ fitsRef ref_ts ref_seq e) →
      read_delta_records ref_ts ref_seq elems.length
        (deltaBytes ref_ts ref_seq elems ++ tail) = some (elems, tail) := by
  intro elems
  induction elems with
  | nil => intro tail h; rfl
  | cons e es ih =>
    intro tail h
    obtain ⟨⟨hwf, hfit⟩, hrest⟩ := List.forall_mem_cons.mp h
    obtain ⟨ts, seq, istr, isb, pr, sz⟩ := e
    obtain ⟨hts, hseq, hpr, hsz⟩ := hwf
    obtain ⟨h1, h2, h3, h4⟩ := hfit
    simp only [Update.WF, fitsRef] at hts hseq hpr hsz h1 h2 h3 h4
    have hser : Update.serialize ⟨ts, seq, istr, isb, pr, sz⟩ ref_ts ref_seq =
        u16BE (ts - ref_ts) ++ ((seq - ref_seq) ::
          boolByte istr :: boolByte isb :: (u32BE pr ++ u32BE sz)) := by
      simp only [Update.serialize, List.cons_append, List.append_assoc, List.nil_append]
      congr 2
      · omega
      · omega
    simp only [deltaBytes, List.length_cons, List.cons_append, List.append_assoc]
    simp only [read_delta_records, readU8_cons, hser]
    simp only [List.append_assoc, List.cons_append]
    simp only [Option.bind_eq_bind, Option.some_bind, readU8_cons, readU16_u16BE,
      readU32_u32BE, reduceIte]
    rw [ih tail hrest]
    simp only [Option.some_bind]
    simp only [Option.some.injEq, Prod.mk.injEq, List.cons.injEq, Update.mk.injEq, and_true]
    refine ⟨by omega, by omega, boolByte_beq istr, boolByte_beq isb, by omega, by omega⟩

theorem deltaBytes_concat (rt rs : Nat) (l : List Update) (e : Update) :
    deltaBytes rt rs (l ++ [e]) = deltaBytes rt rs l ++ 0 :: Update.serialize e rt rs := by
  induction l with
  | nil => simp [deltaBytes]
  | cons x xs ih => simp [deltaBytes, ih]

theorem deltaBytes_singleton (rt rs : Nat) (e : Update) :
    deltaBytes rt rs [e] = 0 :: Update.serialize e rt rs := by
  simp [deltaBytes]

theorem read_one_batch_ok (rt rs : Nat) (elems : List Update) (tail : List Nat)
    (hrt : rt < 4294967296) (hrs : rs < 65536) (hn : elems.length < 65536)
    (h : ∀ e ∈ elems, e.WF ∧ fitsRef rt rs e) :
    read_one_batch (write_reference rt rs elems.length ++
      deltaBytes rt rs elems ++ tail) = some (elems, tail) := by
  simp only [write_reference, List.cons_append, List.append_assoc]
  simp only [read_one_batch, readU8_cons, Option.bind_eq_bind, Option.some_bind,
    readU32_u32BE, readU16_u16BE, reduceIte]
  rw [Nat.mod_eq_of_lt hrt, Nat.mod_eq_of_lt hrs, Nat.mod_eq_of_lt hn]
  exact read_delta_records_deltaBytes rt rs hrt hrs elems tail h

theorem write_main_loop_ne_nil (rest : List Update) :
    ∀ rt rs c buf, write_main_loop rt rs c buf rest ≠ [] := by
  induction rest with
  | nil => intro rt rs c buf; simp [write_main_loop, write_reference]
  | cons e t ih =>
    intro rt rs c buf
    simp only [write_main_loop]
    split
    · simp [write_reference]
    · exact ih rt rs ((c + 1) % 65536) (buf ++ 0 :: Update.serialize e rt rs)

theorem decode_go_nil (fuel : Nat) : decode_go fuel [] = some [] := by
  cases fuel <;> rfl

theorem decode_go_ref (fuel : Nat) (x : List Nat) (batch more : List Update) (rest2 : List Nat)
    (h1 : read_one_batch (1 :: x) = some (batch, rest2))
    (h2 : decode_go fuel rest2 = some more) :
    decode_go (fuel + 1) (1 :: x) = some (batch ++ more) := by
  simp [decode_go, h1, h2]


theorem decode_go_main (rest : List Update) :
    ∀ (rt rs : Nat) (done : List Update) (fuel : Nat),
      rt < 4294967296 → rs < 65536 →
      (∀ d ∈ done, d.WF ∧ fitsRef rt rs d) →
      (∀ r ∈ rest, r.WF ∧ rt ≤ r.ts ∧ rs ≤ r.seq) →
      sortedUps rest →
      done.length ≤ 255 →
      (∀ r ∈ rest, rs + done.length ≤ r.seq) →
      (∀ e tl, done = [] → rest = e :: tl → e.ts = rt ∧ e.seq = rs) →
      (write_main_loop rt rs done.length (deltaBytes rt rs done) rest).length ≤ fuel →
      decode_go fuel (write_main_loop rt rs done.length (deltaBytes rt rs done) rest)
        = some (done ++ rest) := by
  induction rest with
  | nil =>
    intro rt rs done fuel hrt hrs hdone hrest hsort hlen hcross hhead hfuel
    have hb : read_one_batch (write_reference rt rs done.length ++
        deltaBytes rt rs done ++ []) = some (done, []) :=
      read_one_batch_ok rt rs done [] hrt hrs (by omega) hdone
    rw [List.append_nil] at hb
    have hx : write_reference rt rs done.length ++ deltaBytes rt rs done =
        1 :: (u32BE rt ++ (u16BE rs ++ (u16BE done.length ++ deltaBytes rt rs done))) := by
      simp [write_reference, List.append_assoc]
    simp only [write_main_loop] at hfuel ⊢
    rw [hx] at hfuel hb ⊢
    cases fuel with
    | zero => simp [List.length_cons] at hfuel
    | succ f => rw [decode_go_ref f _ done [] [] hb (decode_go_nil f)]
  | cons e t ih =>
    intro rt rs done fuel hrt hrs hdone hrest hsort hlen hcross hhead hfuel
    obtain ⟨hewf, hets, hesq⟩ := hrest e (List.mem_cons_self e t)
    have hrestT : ∀ r ∈ t, r.WF ∧ rt ≤ r.ts ∧ rs ≤ r.seq :=
      fun r hr => hrest r (List.mem_cons_of_mem e hr)
    have hpair : ∀ r ∈ t, e.seq < r.seq ∧ e.ts ≤ r.ts := (List.pairwise_cons.mp hsort).1
    have hsortT : sortedUps t := (List.pairwise_cons.mp hsort).2
    obtain ⟨hewf1, hewf2, hewf3, hewf4⟩ := hewf
    by_cases hcond : (done.length ≠ 0 ∧ (rt + 65535) % 4294967296 ≤ e.ts) ∨
        (rs + 255) % 65536 ≤ e.seq
    · simp only [write_main_loop] at hfuel ⊢
      rw [if_pos hcond] at hfuel ⊢
      have hb : read_one_batch (write_reference rt rs done.length ++
          deltaBytes rt rs done ++
          write_main_loop e.ts e.seq 1 (0 :: Update.serialize e e.ts e.seq) t) =
          some (done, write_main_loop e.ts e.seq 1
            (0 :: Update.serialize e e.ts e.seq) t) :=
        read_one_batch_ok rt rs done _ hrt hrs (by omega) hdone
      have hx : write_reference rt rs done.length ++ (deltaBytes rt rs done ++
          write_main_loop e.ts e.seq 1 (0 :: Update.serialize e e.ts e.seq) t) =
          1 :: (u32BE rt ++ (u16BE rs ++ (u16BE done.length ++ (deltaBytes rt rs done ++
            write_main_loop e.ts e.seq 1 (0 :: Update.serialize e e.ts e.seq) t)))) := by
        simp [write_reference, List.append_assoc]
      rw [← List.append_assoc] at hx
      rw [hx] at hfuel hb ⊢
      cases fuel with
      | zero => simp [List.length_cons] at hfuel
      | succ f =>
        have hR : write_main_loop e.ts e.seq 1 (0 :: Update.serialize e e.ts e.seq) t =
            write_main_loop e.ts e.seq ([e].length) (deltaBytes e.ts e.seq [e]) t := by
          simp [deltaBytes_singleton]
        have hfR : (write_main_loop e.ts e.seq ([e].length)
            (deltaBytes e.ts e.seq [e]) t).length ≤ f := by
          rw [← hR]
          simp only [List.length_cons, List.length_append] at hfuel
          omega
        have h2 : decode_go f (write_main_loop e.ts e.seq 1
            (0 :: Update.serialize e e.ts e.seq) t) = some (e :: t) := by
          rw [hR]
          have := ih e.ts e.seq [e] f hewf1 hewf2
            (by intro d hd
                simp only [List.mem_singleton] at hd
                subst hd
                exact ⟨⟨hewf1, hewf2, hewf3, hewf4⟩, le_refl _, by omega, le_refl _, by omega⟩)
            (by intro r hr
                exact ⟨(hrestT r hr).1, (hpair r hr).2, le_of_lt (hpair r hr).1⟩)
            hsortT (by simp) (by intro r hr; have := (hpair r hr).1; simp; omega)
            (by intro e2 tl2 habs; simp at habs) hfR
          simpa using this
        rw [decode_go_ref f _ done (e :: t) _ hb h2]
    · simp only [write_main_loop] at hfuel ⊢
      rw [if_neg hcond] at hfuel ⊢
      push_neg at hcond
      obtain ⟨hc1, hc2⟩ := hcond
      have hseqB : e.seq ≤ rs + 254 := by omega
      have htsB : e.ts ≤ rt + 65534 := by
        rcases Nat.eq_zero_or_pos done.length with hz | hp
        · have hde : done = [] := List.length_eq_zero.mp hz
          have := hhead e t hde rfl
          omega
        · have := hc1 (by omega)
          omega
      have hcount : (done.length + 1) % 65536 = (done ++ [e]).length := by
        simp [List.length_append]
        omega
      have hbuf : deltaBytes rt rs done ++ 0 :: Update.serialize e rt rs =
          deltaBytes rt rs (done ++ [e]) := (deltaBytes_concat rt rs done e).symm
      rw [hcount, hbuf] at hfuel ⊢
      rw [ih rt rs (done ++ [e]) fuel hrt hrs
        (by intro d hd
            rcases List.mem_append.mp hd with hd | hd
            · exact hdone d hd
            · simp only [List.mem_singleton] at hd
              subst hd
              exact ⟨⟨hewf1, hewf2, hewf3, hewf4⟩, hets, htsB, hesq, hseqB⟩)
        hrestT hsortT
        (by have := hcross e (List.mem_cons_self e t)
            simp [List.length_append]
            omega)
        (by intro r hr
            have := hcross e (List.mem_cons_self e t)
            have := (hpair r hr).1
            simp [List.length_append]
            omega)
        (by intro e2 tl2 habs; simp at habs) hfuel]
      simp

theorem write_symbol_some (sym s9 : List Nat) (h : write_symbol sym = some s9) :
    sym.length ≤ 9 ∧ s9 = sym ++ List.replicate (9 - sym.length) 32 := by
  unfold write_symbol at h
  split at h
  · exact ⟨by assumption, (Option.some.injEq _ _ ▸ h).symm⟩
  · exact absurd h (by simp)

theorem encode_some (sym : List Nat) (ups : List Update) (bytes : List Nat)
    (h : encode sym ups = some bytes) :
    ∃ main, write_main ups = some main ∧ sym.length ≤ 9 ∧
      bytes = MAGIC_VALUE ++ (sym ++ List.replicate (9 - sym.length) 32) ++
        write_metadata ups ++ List.replicate 54 0 ++ main := by
  unfold encode at h
  cases hws : write_symbol sym with
  | none => rw [hws] at h; exact absurd h (by simp)
  | some s9 =>
    cases hwm : write_main ups with
    | none => rw [hws, hwm] at h; exact absurd h (by simp)
    | some main =>
      rw [hws, hwm] at h
      simp only [Option.some.injEq] at h
      obtain ⟨hle, hs9⟩ := write_symbol_some sym s9 hws
      exact ⟨main, rfl, hle, by rw [← h, hs9]⟩

theorem encode_bytes_parts (sym : List Nat) (ups : List Update) (bytes main : List Nat)
    (hsym : sym.length ≤ 9)
    (hbytes : bytes = MAGIC_VALUE ++ (sym ++ List.replicate (9 - sym.length) 32) ++
      write_metadata ups ++ List.replicate 54 0 ++ main) :
    bytes.take 5 = MAGIC_VALUE ∧
    (bytes.drop 5).take 9 = sym ++ List.replicate (9 - sym.length) 32 ∧
    bytes.drop 14 = u64BE ups.length ++ (u32BE (get_max_ts ups) ++
      (List.replicate 54 0 ++ main)) ∧
    bytes.drop 22 = u32BE (get_max_ts ups) ++ (List.replicate 54 0 ++ main) ∧
    bytes.drop 80 = main := by
  subst hbytes
  have hlp : (sym ++ List.replicate (9 - sym.length) 32).length = 9 := by
    simp [List.length_append, List.length_replicate]
    omega
  have h5 : (MAGIC_VALUE ++ ((sym ++ List.replicate (9 - sym.length) 32) ++
      (write_metadata ups ++ (List.replicate 54 0 ++ main)))).take 5 = MAGIC_VALUE :=
    List.take_left' (by simp [MAGIC_VALUE])
  have hd5 : (MAGIC_VALUE ++ ((sym ++ List.replicate (9 - sym.length) 32) ++
      (write_metadata ups ++ (List.replicate 54 0 ++ main)))).drop 5 =
      (sym ++ List.replicate (9 - sym.length) 32) ++
        (write_metadata ups ++ (List.replicate 54 0 ++ main)) :=
    List.drop_left' (by simp [MAGIC_VALUE])
  have hd14 : (MAGIC_VALUE ++ ((sym ++ List.replicate (9 - sym.length) 32) ++
      (write_metadata ups ++ (List.replicate 54 0 ++ main)))).drop 14 =
      write_metadata ups ++ (List.replicate 54 0 ++ main) := by
    rw [← List.append_assoc]
    exact List.drop_left' (by simp [MAGIC_VALUE, hlp])
  have hd22 : (MAGIC_VALUE ++ ((sym ++ List.replicate (9 - sym.length) 32) ++
      (write_metadata ups ++ (List.replicate 54 0 ++ main)))).drop 22 =
      u32BE (get_max_ts ups) ++ (List.replicate 54 0 ++ main) := by
    have : (22 : Nat) = 14 + 8 := by norm_num
    rw [this, ← List.drop_drop, hd14]
    simp only [write_metadata, List.append_assoc]
    exact List.drop_left' (by simp [u64BE])
  have hd80 : (MAGIC_VALUE ++ ((sym ++ List.replicate (9 - sym.length) 32) ++
      (write_metadata ups ++ (List.replicate 54 0 ++ main)))).drop 80 = main := by
    have : (80 : Nat) = 22 + 58 := by norm_num
    rw [this, ← List.drop_drop, hd22, ← List.append_assoc]
    exact List.drop_left' (by simp [u32BE])
  simp only [List.append_assoc] at *
  refine ⟨h5, ?_, ?_, hd22, hd80⟩
  · rw [hd5, ← List.append_assoc]
    exact List.take_left' hlp
  · rw [hd14]
    simp [write_metadata, List.append_assoc]

theorem max_ts_foldl (l : List Update) :
    ∀ a : Nat, l.foldl (fun m u => if u.ts > m then u.ts else m) a = Nat.max a (listMaxTs l) := by
  induction l with
  | nil => intro a; simp [listMaxTs]
  | cons u t ih =>
    intro a
    simp only [List.foldl_cons, listMaxTs, List.map_cons, List.foldr_cons]
    rw [ih]
    simp only [listMaxTs]
    have : (if u.ts > a then u.ts else a) = Nat.max a u.ts := by
      rcases Nat.lt_or_ge a u.ts with h | h
      · simp [h, Nat.max_eq_right (le_of_lt h)]
      · have : ¬ (u.ts > a) := by omega
        simp [this, Nat.max_eq_left h]
    rw [this]
    exact Nat.max_assoc a u.ts _

theorem get_max_ts_eq (ups : List Update) : get_max_ts ups = listMaxTs ups := by
  unfold get_max_ts
  rw [max_ts_foldl]
  exact Nat.zero_max _

theorem listMaxTs_lt (ups : List Update) (hwf : ∀ u ∈ ups, u.ts < 4294967296) :
    listMaxTs ups < 4294967296 := by
  induction ups with
  | nil => simp [listMaxTs]
  | cons u t ih =>
    simp only [listMaxTs, List.map_cons, List.foldr_cons]
    have h1 := hwf u (List.mem_cons_self u t)
    have h2 : listMaxTs t < 4294967296 :=
      ih (fun v hv => hwf v (List.mem_cons_of_mem u hv))
    simp only [listMaxTs] at h2
    exact Nat.max_lt.mpr ⟨h1, h2⟩

theorem get_max_ts_lt (ups : List Update) (hwf : ∀ u ∈ ups, u.WF) :
    get_max_ts ups < 4294967296 := by
  rw [get_max_ts_eq]
  exact listMaxTs_lt ups (fun u hu => (hwf u hu).1)

theorem sorted_head_bounds (u0 : Update) (tl : List Update)
    (hwf : ∀ u ∈ u0 :: tl, u.WF) (hsort : sortedUps (u0 :: tl)) :
    ∀ r ∈ u0 :: tl, r.WF ∧ u0.ts ≤ r.ts ∧ u0.seq ≤ r.seq := by
  intro r hr
  rcases List.mem_cons.mp hr with h | h
  · subst h
    exact ⟨hwf r (List.mem_cons_self _ _), le_refl _, le_refl _⟩
  · have := (List.pairwise_cons.mp hsort).1 r h
    exact ⟨hwf r hr, this.2, le_of_lt this.1⟩

theorem decode_go_write_main (u0 : Update) (tl : List Update) (main : List Nat)
    (hwf : ∀ u ∈ u0 :: tl, u.WF) (hsort : sortedUps (u0 :: tl))
    (hm : write_main (u0 :: tl) = some main) (fuel : Nat) (hfuel : main.length ≤ fuel) :
    decode_go fuel main = some (u0 :: tl) := by
  simp only [write_main, Option.some.injEq] at hm
  obtain ⟨h1, h2, h3, h4⟩ := hwf u0 (List.mem_cons_self _ _)
  subst hm
  have := decode_go_main (u0 :: tl) u0.ts u0.seq [] fuel h1 h2
    (by intro d hd; simp at hd)
    (sorted_head_bounds u0 tl hwf hsort) hsort (by simp)
    (by intro r hr
        rcases List.mem_cons.mp hr with h | h
        · subst h; simp
        · simpa using le_of_lt ((List.pairwise_cons.mp hsort).1 r h).1)
    (by intro e tl2 hde hco
        injection hco with he htl
        subst he
        exact ⟨rfl, rfl⟩)
    (by simpa [deltaBytes] using hfuel)
  simpa [deltaBytes] using this

theorem decode_encode (sym : List Nat) (ups : List Update) (bytes : List Nat)
    (hascii : ∀ b ∈ sym, b < 128)
    (hwf : ∀ u ∈ ups, u.WF) (hsort : sortedUps ups)
    (henc : encode sym ups = some bytes) :
    decode bytes = some ups := by
  obtain ⟨main, hwm, hsle, hbytes⟩ := encode_some sym ups bytes henc
  obtain ⟨h5, h9, h14, h22, h80⟩ := encode_bytes_parts sym ups bytes main hsle hbytes
  have hsymr : read_symbol bytes = some (sym ++ List.replicate (9 - sym.length) 32) := by
    unfold read_symbol
    rw [h9]
    rw [if_pos]
    constructor
    · simp [List.length_append, List.length_replicate]
      omega
    · intro b hb
      rcases List.mem_append.mp hb with hb | hb
      · exact hascii b hb
      · have := List.eq_of_mem_replicate hb
        omega
  have hlenr : read_len bytes = some (ups.length % 18446744073709551616) := by
    unfold read_len
    rw [h14, readU64_u64BE]
    rfl
  have hmaxr : read_max_ts bytes = some (get_max_ts ups % 4294967296) := by
    unfold read_max_ts
    rw [h22, readU32_u32BE]
    rfl
  cases ups with
  | nil => exact absurd hwm (by simp [write_main])
  | cons u0 tl =>
    unfold decode
    rw [h5, if_pos rfl, hsymr, hlenr, hmaxr, h80]
    exact decode_go_write_main u0 tl main hwf hsort hwm main.length (le_refl _)

theorem read_one_batch_main_loop (rest : List Update) :
    ∀ (rt rs : Nat) (done : List Update),
      rt < 4294967296 → rs < 65536 →
      (∀ d ∈ done, d.WF ∧ fitsRef rt rs d) →
      (∀ r ∈ rest, r.WF ∧ rt ≤ r.ts ∧ rs ≤ r.seq) →
      sortedUps rest →
      done.length ≤ 255 →
      (∀ r ∈ rest, rs + done.length ≤ r.seq) →
      (∀ e tl, done = [] → rest = e :: tl → e.ts = rt ∧ e.seq = rs) →
      ∃ pre post tailOut,
        rest = pre ++ post ∧
        (∀ u ∈ pre, u.ts ≤ rt + 65534 ∧ u.seq ≤ rs + 254) ∧
        read_one_batch (write_main_loop rt rs done.length (deltaBytes rt rs done) rest)
          = some (done ++ pre, tailOut) ∧
        (∀ fuel, tailOut.length ≤ fuel → decode_go fuel tailOut = some post) ∧
        (tailOut = [] ↔ post = []) := by
  induction rest with
  | nil =>
    intro rt rs done hrt hrs hdone hrest hsort hlen hcross hhead
    refine ⟨[], [], [], by simp, by simp, ?_, ?_, by simp⟩
    · have hb := read_one_batch_ok rt rs done [] hrt hrs (by omega) hdone
      rw [List.append_nil] at hb
      simpa only [write_main_loop, List.append_nil] using hb
    · intro fuel _
      exact decode_go_nil fuel
  | cons e t ih =>
    intro rt rs done hrt hrs hdone hrest hsort hlen hcross hhead
    obtain ⟨hewf, hets, hesq⟩ := hrest e (List.mem_cons_self e t)
    have hrestT : ∀ r ∈ t, r.WF ∧ rt ≤ r.ts ∧ rs ≤ r.seq :=
      fun r hr => hrest r (List.mem_cons_of_mem e hr)
    have hpair : ∀ r ∈ t, e.seq < r.seq ∧ e.ts ≤ r.ts := (List.pairwise_cons.mp hsort).1
    have hsortT : sortedUps t := (List.pairwise_cons.mp hsort).2
    obtain ⟨hewf1, hewf2, hewf3, hewf4⟩ := hewf
    by_cases hcond : (done.length ≠ 0 ∧ (rt + 65535) % 4294967296 ≤ e.ts) ∨
        (rs + 255) % 65536 ≤ e.seq
    · refine ⟨[], e :: t,
        write_main_loop e.ts e.seq 1 (0 :: Update.serialize e e.ts e.seq) t,
        by simp, by simp, ?_, ?_, ?_⟩
      · have hb := read_one_batch_ok rt rs done
          (write_main_loop e.ts e.seq 1 (0 :: Update.serialize e e.ts e.seq) t)
          hrt hrs (by omega) hdone
        simp only [write_main_loop]
        rw [if_pos hcond]
        simpa using hb
      · intro fuel hfuel
        have hR : write_main_loop e.ts e.seq 1 (0 :: Update.serialize e e.ts e.seq) t =
            write_main_loop e.ts e.seq ([e].length) (deltaBytes e.ts e.seq [e]) t := by
          simp [deltaBytes_singleton]
        rw [hR] at hfuel ⊢
        have := decode_go_main t e.ts e.seq [e] fuel hewf1 hewf2
          (by intro d hd
              simp only [List.mem_singleton] at hd
              subst hd
              exact ⟨⟨hewf1, hewf2, hewf3, hewf4⟩, le_refl _, by omega, le_refl _, by omega⟩)
          (by intro r hr
              exact ⟨(hrestT r hr).1, (hpair r hr).2, le_of_lt (hpair r hr).1⟩)
          hsortT (by simp)
          (by intro r hr; have := (hpair r hr).1; simp; omega)
          (by intro e2 tl2 habs; simp at habs) hfuel
        simpa using this
      · constructor
        · intro habs
          exact absurd habs (write_main_loop_ne_nil t e.ts e.seq 1 _)
        · intro habs
          exact absurd habs (by simp)
    · push_neg at hcond
      obtain ⟨hc1, hc2⟩ := hcond
      have hseqB : e.seq ≤ rs + 254 := by omega
      have htsB : e.ts ≤ rt + 65534 := by
        rcases Nat.eq_zero_or_pos done.length with hz | hp
        · have hde : done = [] := List.length_eq_zero.mp hz
          have := hhead e t hde rfl
          omega
        · have := hc1 (by omega)
          omega
      obtain ⟨pre, post, tailOut, hsplit, hpre, hro, hdec, hiff⟩ :=
        ih rt rs (done ++ [e]) hrt hrs
        (by intro d hd
            rcases List.mem_append.mp hd with hd | hd
            · exact hdone d hd
            · simp only [List.mem_singleton] at hd
              subst hd
              exact ⟨⟨hewf1, hewf2, hewf3, hewf4⟩, hets, htsB, hesq, hseqB⟩)
        hrestT hsortT
        (by have := hcross e (List.mem_cons_self e t)
            simp [List.length_append]
            omega)
        (by intro r hr
            have := hcross e (List.mem_cons_self e t)
            have := (hpair r hr).1
            simp [List.length_append]
            omega)
        (by intro e2 tl2 habs; simp at habs)
      refine ⟨e :: pre, post, tailOut, by simp [hsplit], ?_, ?_, hdec, hiff⟩
      · intro u hu
        rcases List.mem_cons.mp hu with hu | hu
        · subst hu; exact ⟨htsB, hseqB⟩
        · exact hpre u hu
      · have hcond2 : ¬ ((done.length ≠ 0 ∧ (rt + 65535) % 4294967296 ≤ e.ts) ∨
            (rs + 255) % 65536 ≤ e.seq) := by
          push_neg
          exact ⟨hc1, hc2⟩
        simp only [write_main_loop]
        rw [if_neg hcond2]
        have hcount : (done.length + 1) % 65536 = (done ++ [e]).length := by
          simp [List.length_append]
          omega
        have hbuf : deltaBytes rt rs done ++ 0 :: Update.serialize e rt rs =
            deltaBytes rt rs (done ++ [e]) := (deltaBytes_concat rt rs done e).symm
        rw [hcount, hbuf, hro]
        simp

theorem loops_eq (rest : List Update) :
    ∀ rt rs c buf, c ≠ 0 → c + rest.length ≤ 65535 →
      write_main_loop rt rs c buf rest = write_main_guarded_loop rt rs c buf rest := by
  induction rest with
  | nil => intro rt rs c buf hc hlen; rfl
  | cons e t ih =>
    intro rt rs c buf hc hlen
    simp only [List.length_cons] at hlen
    simp only [write_main_loop, write_main_guarded_loop]
    by_cases h : (c ≠ 0 ∧ (rt + 65535) % 4294967296 ≤ e.ts) ∨ (rs + 255) % 65536 ≤ e.seq
    · have hg : c ≠ 0 ∧ ((rt + 65535) % 4294967296 ≤ e.ts ∨ (rs + 255) % 65536 ≤ e.seq) := by
        rcases h with ⟨h1, h2⟩ | h2
        · exact ⟨hc, Or.inl h2⟩
        · exact ⟨hc, Or.inr h2⟩
      rw [if_pos h, if_pos hg, ih e.ts e.seq 1 _ one_ne_zero (by omega)]
    · have hg : ¬ (c ≠ 0 ∧ ((rt + 65535) % 4294967296 ≤ e.ts ∨ (rs + 255) % 65536 ≤ e.seq)) := by
        rintro ⟨h1, h2 | h2⟩
        · exact h (Or.inl ⟨h1, h2⟩)
        · exact h (Or.inr h2)
      rw [if_neg h, if_neg hg]
      exact ih rt rs ((c + 1) % 65536) _ (by omega) (by omega)

theorem decode_go_no_ref (fuel : Nat) :
    ∀ l : List Nat, (∀ b ∈ l, b ≠ 1) → l.length ≤ fuel → decode_go fuel l = some [] := by
  induction fuel with
  | zero =>
    intro l h hl
    cases l with
    | nil => rfl
    | cons b rest =>
      simp only [List.length_cons] at hl
      omega
  | succ f ih =>
    intro l h hl
    cases l with
    | nil => rfl
    | cons b rest =>
      simp only [decode_go]
      rw [if_neg (h b (List.mem_cons_self b rest))]
      refine ih rest (fun x hx => h x (List.mem_cons_of_mem b hx)) ?_
      simp only [List.length_cons] at hl
      omega

theorem readU64_len8 (l : List Nat) (h : 8 ≤ l.length) :
    ∃ v r, readU64 l = some (v, r) := by
  rcases l with _ | ⟨b0, _ | ⟨b1, _ | ⟨b2, _ | ⟨b3, _ | ⟨b4, _ | ⟨b5, _ | ⟨b6, _ | ⟨b7, rest⟩⟩⟩⟩⟩⟩⟩⟩ <;>
    simp only [List.length_nil, List.length_cons] at h
  all_goals first
    | omega
    | exact ⟨_, _, rfl⟩

theorem readU32_len4 (l : List Nat) (h : 4 ≤ l.length) :
    ∃ v r, readU32 l = some (v, r) := by
  rcases l with _ | ⟨b0, _ | ⟨b1, _ | ⟨b2, _ | ⟨b3, rest⟩⟩⟩⟩ <;>
    simp only [List.length_nil, List.length_cons] at h
  all_goals first
    | omega
    | exact ⟨_, _, rfl⟩

/-- Claim C1: for every sorted, non-empty sequence of updates with strictly
increasing sequence numbers and non-decreasing timestamps (and in-range
fields, with an ASCII symbol of at most 9 bytes, as required for `encode` to
succeed), decoding the file produced by `encode` returns a sequence equal
field by field — including the price and size bit patterns — to the input. -/
theorem round_trip (sym : List Nat) (ups : List Update) (bytes : List Nat)
    (hascii : ∀ b ∈ sym, b < 128) (hne : ups ≠ [])
    (hwf : ∀ u ∈ ups, u.WF) (hsort : sortedUps ups)
    (henc : encode sym ups = some bytes) :
    decode bytes = some ups := by
  have hne2 := hne
  exact decode_encode sym ups bytes hascii hwf hsort henc

/-- Witness for C1 at the repository's own test vector shape. -/
theorem round_trip_witness :
    decode ((encode [78, 69, 79] [⟨100, 113, false, false, 11, 12⟩,
        ⟨1000000, 123, true, false, 11, 14⟩]).getD []) =
      some [⟨100, 113, false, false, 11, 12⟩, ⟨1000000, 123, true, false, 11, 14⟩] :=
  round_trip [78, 69, 79] [⟨100, 113, false, false, 11, 12⟩,
      ⟨1000000, 123, true, false, 11, 14⟩] _
    (by decide) (by decide) (by decide) (by decide) (by decide)

/-- Claim C2: the `append` stub does not enforce the claimed ordering check.
Evaluated at a file holding timestamps 100 and 200 (header maximum 200) and a
new update with timestamp 150 — not strictly greater than the maximum — the
call returns successfully (with the computed new maximum 150) instead of
failing with an ordering violation: the guard compares against the file's
first (minimum) timestamp because `read_min_ts` shadows `read_max_ts`. -/
theorem append_ignores_max_ts :
    (encode [78] [⟨100, 1, false, false, 0, 0⟩, ⟨200, 2, false, false, 0, 0⟩]).bind
      (fun f => append f [⟨150, 3, false, false, 0, 0⟩]) = some 150 ∧
    get_max_ts [⟨100, 1, false, false, 0, 0⟩, ⟨200, 2, false, false, 0, 0⟩] = 200 ∧
    (150 : Nat) ≤ 200 := by decide

/-- Claim C3: for a sorted input (same discipline as C1) whose members span
more than 65534 timestamp units or more than 254 sequence units from the
first update (the initial reference), the encoder emits more than one batch —
the first batch holds strictly fewer records than the input and is followed
by further batch bytes — and decoding reconstructs absolute timestamps and
sequence numbers identical to the originals on both sides of the boundary. -/
theorem batch_boundary (sym : List Nat) (u0 : Update) (tl : List Update) (bytes : List Nat)
    (hascii : ∀ b ∈ sym, b < 128)
    (hwf : ∀ u ∈ u0 :: tl, u.WF) (hsort : sortedUps (u0 :: tl))
    (hspan : ∃ u ∈ u0 :: tl, u0.ts + 65535 ≤ u.ts ∨ u0.seq + 255 ≤ u.seq)
    (henc : encode sym (u0 :: tl) = some bytes) :
    ∃ v r, read_one_batch (bytes.drop 80) = some (v, r) ∧
      v.length < (u0 :: tl).length ∧ r ≠ [] ∧
      decode_go r.length r = some ((u0 :: tl).drop v.length) ∧
      decode bytes = some (u0 :: tl) := by
  obtain ⟨main, hwm, hsle, hbytes⟩ := encode_some sym (u0 :: tl) bytes henc
  obtain ⟨h5, h9, h14, h22, h80⟩ := encode_bytes_parts sym (u0 :: tl) bytes main hsle hbytes
  simp only [write_main, Option.some.injEq] at hwm
  obtain ⟨h1, h2, h3, h4⟩ := hwf u0 (List.mem_cons_self _ _)
  obtain ⟨pre, post, tailOut, hsplit, hpre, hro, hdec, hiff⟩ :=
    read_one_batch_main_loop (u0 :: tl) u0.ts u0.seq [] h1 h2
      (by intro d hd; simp at hd)
      (sorted_head_bounds u0 tl hwf hsort) hsort (by simp)
      (by intro r hr
          rcases List.mem_cons.mp hr with h | h
          · subst h; simp
          · simpa using le_of_lt ((List.pairwise_cons.mp hsort).1 r h).1)
      (by intro e tl2 hde hco
          injection hco with he htl
          subst he
          exact ⟨rfl, rfl⟩)
  have hform : write_main_loop u0.ts u0.seq ([] : List Update).length
      (deltaBytes u0.ts u0.seq []) (u0 :: tl) =
      write_main_loop u0.ts u0.seq 0 [] (u0 :: tl) := rfl
  rw [hform, hwm] at hro
  simp only [List.nil_append] at hro
  have hpost : post ≠ [] := by
    obtain ⟨u, hu, hor⟩ := hspan
    have hunotpre : u ∉ pre := by
      intro hmem
      have := hpre u hmem
      omega
    have humem : u ∈ pre ++ post := by rw [← hsplit]; exact hu
    rcases List.mem_append.mp humem with hm | hm
    · exact absurd hm hunotpre
    · exact List.ne_nil_of_mem hm
  have htail : tailOut ≠ [] := fun htv => hpost (hiff.mp htv)
  refine ⟨pre, tailOut, by rw [h80]; exact hro, ?_, htail, ?_, ?_⟩
  · have := congrArg List.length hsplit
    simp only [List.length_append] at this
    have : post.length ≠ 0 := fun hz => hpost (List.length_eq_zero.mp hz)
    omega
  · have hd := hdec tailOut.length (le_refl _)
    rw [hd]
    have : (u0 :: tl).drop pre.length = post := by
      rw [hsplit]
      exact List.drop_left pre post
    rw [this]
  · exact decode_encode sym (u0 :: tl) bytes hascii hwf hsort henc

/-- Witness for C3: two updates 70000 timestamp units apart force two
batches. -/
theorem batch_boundary_witness :
    ∃ v r, read_one_batch (((encode [78] [⟨0, 0, false, false, 0, 0⟩,
        ⟨70000, 1, false, false, 0, 0⟩]).getD []).drop 80) = some (v, r) ∧
      v.length < ([⟨0, 0, false, false, 0, 0⟩, ⟨70000, 1, false, false, 0, 0⟩] :
        List Update).length ∧ r ≠ [] ∧
      decode_go r.length r = some (([⟨0, 0, false, false, 0, 0⟩,
        ⟨70000, 1, false, false, 0, 0⟩] : List Update).drop v.length) ∧
      decode ((encode [78] [⟨0, 0, false, false, 0, 0⟩,
        ⟨70000, 1, false, false, 0, 0⟩]).getD []) =
        some [⟨0, 0, false, false, 0, 0⟩, ⟨70000, 1, false, false, 0, 0⟩] :=
  batch_boundary [78] ⟨0, 0, false, false, 0, 0⟩ [⟨70000, 1, false, false, 0, 0⟩] _
    (by decide) (by decide) (by decide) (by decide) (by decide)

/-- Claim C4: for every input sequence accepted by `encode` (with in-range
fields and a record count below 2^64), the record count decoded from the
header equals the input length and the decoded maximum timestamp equals the
maximum `ts` field among the inputs; the written maximum (`get_max_ts`)
agrees with the specification-side maximum `listMaxTs`, which is 0 for an
empty input list. -/
theorem header_integrity (sym : List Nat) (ups : List Update) (bytes : List Nat)
    (hwf : ∀ u ∈ ups, u.WF) (hcount : ups.length < 18446744073709551616)
    (henc : encode sym ups = some bytes) :
    read_len bytes = some ups.length ∧
    read_max_ts bytes = some (get_max_ts ups) ∧
    get_max_ts ups = listMaxTs ups ∧
    get_max_ts ([] : List Update) = 0 := by
  obtain ⟨main, hwm, hsle, hbytes⟩ := encode_some sym ups bytes henc
  obtain ⟨h5, h9, h14, h22, h80⟩ := encode_bytes_parts sym ups bytes main hsle hbytes
  refine ⟨?_, ?_, get_max_ts_eq ups, rfl⟩
  · unfold read_len
    rw [h14, readU64_u64BE]
    simp [Nat.mod_eq_of_lt hcount]
  · unfold read_max_ts
    rw [h22, readU32_u32BE]
    simp [Nat.mod_eq_of_lt (get_max_ts_lt ups hwf)]

/-- Witness for C4. -/
theorem header_integrity_witness :
    read_len ((encode [78] [⟨100, 113, false, false, 11, 12⟩,
        ⟨1000000, 123, true, false, 11, 14⟩]).getD []) = some 2 ∧
    read_max_ts ((encode [78] [⟨100, 113, false, false, 11, 12⟩,
        ⟨1000000, 123, true, false, 11, 14⟩]).getD []) = some 1000000 ∧
    get_max_ts [⟨100, 113, false, false, 11, 12⟩, ⟨1000000, 123, true, false, 11, 14⟩] =
      listMaxTs [⟨100, 113, false, false, 11, 12⟩, ⟨1000000, 123, true, false, 11, 14⟩] ∧
    get_max_ts ([] : List Update) = 0 :=
  header_integrity [78] [⟨100, 113, false, false, 11, 12⟩,
      ⟨1000000, 123, true, false, 11, 14⟩] _ (by decide) (by decide) (by decide)

/-- Claim C5: for every ASCII symbol of at most 9 bytes, the bytes stored at
offset 5 equal the symbol right-padded with spaces to exactly 9 bytes and
`read_symbol` returns exactly that padded 9-byte form; writing fails when the
symbol exceeds 9 bytes. -/
theorem symbol_round_trip (sym : List Nat) (ups : List Update)
    (hascii : ∀ b ∈ sym, b < 128) :
    (∀ bytes, encode sym ups = some bytes →
      (bytes.drop 5).take 9 = sym ++ List.replicate (9 - sym.length) 32 ∧
      read_symbol bytes = some (sym ++ List.replicate (9 - sym.length) 32) ∧
      (sym ++ List.replicate (9 - sym.length) 32).length = 9) ∧
    (9 < sym.length → encode sym ups = none) := by
  constructor
  · intro bytes henc
    obtain ⟨main, hwm, hsle, hbytes⟩ := encode_some sym ups bytes henc
    obtain ⟨h5, h9, h14, h22, h80⟩ := encode_bytes_parts sym ups bytes main hsle hbytes
    have hlen9 : (sym ++ List.replicate (9 - sym.length) 32).length = 9 := by
      simp only [List.length_append, List.length_replicate]
      omega
    have hcond : (sym ++ List.replicate (9 - sym.length) 32).length = 9 ∧
        ∀ b ∈ sym ++ List.replicate (9 - sym.length) 32, b < 128 := by
      refine ⟨hlen9, fun b hb => ?_⟩
      rcases List.mem_append.mp hb with hb | hb
      · exact hascii b hb
      · have := List.eq_of_mem_replicate hb
        omega
    refine ⟨h9, ?_, hlen9⟩
    unfold read_symbol
    rw [h9, if_pos hcond]
  · intro hgt
    have hws : write_symbol sym = none := by
      unfold write_symbol
      rw [if_neg (by omega)]
    unfold encode
    rw [hws]

/-- Witness for C5. -/
theorem symbol_round_trip_witness :
    ((((encode [78, 69, 79] [⟨0, 0, false, false, 0, 0⟩]).getD []).drop 5).take 9 =
        [78, 69, 79] ++ List.replicate 6 32) ∧
    read_symbol ((encode [78, 69, 79] [⟨0, 0, false, false, 0, 0⟩]).getD []) =
      some ([78, 69, 79] ++ List.replicate 6 32) :=
  have h := (symbol_round_trip [78, 69, 79] [⟨0, 0, false, false, 0, 0⟩] (by decide)).1
    ((encode [78, 69, 79] [⟨0, 0, false, false, 0, 0⟩]).getD []) (by decide)
  ⟨h.1, h.2.1⟩

/-- Counterexample to C6 as stated: the sorted singleton input with sequence
number 65281 encodes successfully, yet reading the first record fails
(`batch[0]` on an empty batch) instead of returning that element — the
wrapping `ref_seq + 255` comparison makes the very first flush test true with
`count = 0`, so the file starts with an empty reference batch. -/
theorem read_first_counterexample :
    (encode [78] [⟨0, 65281, false, false, 0, 0⟩]).isSome = true ∧
    (encode [78] [⟨0, 65281, false, false, 0, 0⟩]).bind read_first = none := by decide

/-- Claim C6 (amended): for every file encoded from a sorted, non-empty,
in-range input whose first sequence number is at most 65280 (so that
`ref_seq + 255` does not wrap in u16), reading the first record returns the
element with the smallest sequence number, equal to the first element of the
sorted input; `read_first` by definition decodes only the one batch at the
main-section offset. -/
theorem read_first_ok (sym : List Nat) (u0 : Update) (tl : List Update) (bytes : List Nat)
    (hwf : ∀ u ∈ u0 :: tl, u.WF) (hsort : sortedUps (u0 :: tl)) (hseq : u0.seq ≤ 65280)
    (henc : encode sym (u0 :: tl) = some bytes) :
    read_first bytes = some u0 ∧ ∀ u ∈ u0 :: tl, u0.seq ≤ u.seq := by
  obtain ⟨main, hwm, hsle, hbytes⟩ := encode_some sym (u0 :: tl) bytes henc
  obtain ⟨h5, h9, h14, h22, h80⟩ := encode_bytes_parts sym (u0 :: tl) bytes main hsle hbytes
  simp only [write_main, Option.some.injEq] at hwm
  obtain ⟨h1, h2, h3, h4⟩ := hwf u0 (List.mem_cons_self _ _)
  have hpair : ∀ r ∈ tl, u0.seq < r.seq ∧ u0.ts ≤ r.ts := (List.pairwise_cons.mp hsort).1
  have hstep : write_main_loop u0.ts u0.seq 0 [] (u0 :: tl) =
      write_main_loop u0.ts u0.seq ([u0].length) (deltaBytes u0.ts u0.seq [u0]) tl := by
    simp only [write_main_loop]
    rw [if_neg (by
      push_neg
      exact ⟨fun hcontra => absurd rfl hcontra, by omega⟩)]
    norm_num [deltaBytes_singleton]
  obtain ⟨pre, post, tailOut, hsplit, hpre, hro, hdec, hiff⟩ :=
    read_one_batch_main_loop tl u0.ts u0.seq [u0] h1 h2
      (by intro d hd
          simp only [List.mem_singleton] at hd
          subst hd
          exact ⟨⟨h1, h2, h3, h4⟩, le_refl _, by omega, le_refl _, by omega⟩)
      (by intro r hr
          exact ⟨hwf r (List.mem_cons_of_mem _ hr), (hpair r hr).2, le_of_lt (hpair r hr).1⟩)
      ((List.pairwise_cons.mp hsort).2) (by simp)
      (by intro r hr
          have := (hpair r hr).1
          simp only [List.length_singleton]
          omega)
      (by intro e2 tl2 habs; simp at habs)
  constructor
  · unfold read_first read_first_batch
    rw [h80, ← hwm, hstep, hro]
    simp
  · exact fun u hu => (sorted_head_bounds u0 tl hwf hsort u hu).2.2

/-- Witness for the amended C6. -/
theorem read_first_ok_witness :
    read_first ((encode [78, 69, 79] [⟨100, 113, false, false, 11, 12⟩,
        ⟨1000000, 123, true, false, 11, 14⟩]).getD []) =
      some ⟨100, 113, false, false, 11, 12⟩ :=
  (read_first_ok [78, 69, 79] ⟨100, 113, false, false, 11, 12⟩
    [⟨1000000, 123, true, false, 11, 14⟩] _
    (by decide) (by decide) (by decide) (by decide)).1

/-- Claim C7: decoding any byte stream whose first 5 bytes differ from the
magic constant fails (the source panics before reading anything else), so no
partial data is returned. -/
theorem magic_mismatch (bytes : List Nat) (h : bytes.take 5 ≠ MAGIC_VALUE) :
    decode bytes = none := by
  unfold decode
  rw [if_neg h]

/-- Witness for C7. -/
theorem magic_mismatch_witness : decode [0, 0, 0, 0, 0] = none :=
  magic_mismatch [0, 0, 0, 0, 0] (by decide)

/-- Claim C8: every file with a valid header (correct magic, at least the 26
header bytes, ASCII symbol bytes) and zero records — no reference flag byte
anywhere in its main section, which in particular covers a bare header with
no batches at all — decodes to the empty sequence rather than an error. -/
theorem empty_file_decode (bytes : List Nat)
    (hmagic : bytes.take 5 = MAGIC_VALUE) (hlen : 26 ≤ bytes.length)
    (hascii : ∀ b ∈ (bytes.drop 5).take 9, b < 128)
    (hnoref : ∀ b ∈ bytes.drop 80, b ≠ 1) :
    decode bytes = some [] := by
  have hsym : read_symbol bytes = some ((bytes.drop 5).take 9) := by
    unfold read_symbol
    rw [if_pos ⟨by
      simp only [List.length_take, List.length_drop]
      omega, hascii⟩]
  obtain ⟨v1, r1, hv1⟩ := readU64_len8 (bytes.drop 14) (by
    simp only [List.length_drop]
    omega)
  obtain ⟨v2, r2, hv2⟩ := readU32_len4 (bytes.drop 22) (by
    simp only [List.length_drop]
    omega)
  have hrl : read_len bytes = some v1 := by
    unfold read_len
    rw [hv1]
    rfl
  have hrm : read_max_ts bytes = some v2 := by
    unfold read_max_ts
    rw [hv2]
    rfl
  unfold decode
  rw [if_pos hmagic, hsym, hrl, hrm]
  exact decode_go_no_ref (bytes.drop 80).length (bytes.drop 80) hnoref (le_refl _)

/-- Witness for C8: a bare 26-byte header (magic, blank symbol, blank
metadata) decodes to the empty sequence. -/
theorem empty_file_decode_witness :
    decode (MAGIC_VALUE ++ List.replicate 21 32) = some [] :=
  empty_file_decode (MAGIC_VALUE ++ List.replicate 21 32)
    (by decide) (by decide) (by decide) (by decide)

/-- Counterexample to C9 as stated: at the accepted singleton input with
sequence number 65281, the test as written flushes on the first iteration
(where `count = 0` but the wrapped `ref_seq + 255` comparison holds), so the
output contains an extra empty reference batch that the fully guarded
interpretation does not emit — the claimed justification that the
sequence-overflow disjunct is false whenever `count = 0` fails. -/
theorem precedence_counterexample :
    write_main [⟨0, 65281, false, false, 0, 0⟩] ≠
      write_main_guarded [⟨0, 65281, false, false, 0, 0⟩] := by decide

/-- Claim C9 (amended): for every input accepted by the encoder with at most
65535 updates (so the u16 record counter cannot wrap to 0) whose first
update's sequence number is at most 65280 (so `ref_seq + 255` does not wrap
on the first iteration, where `count = 0` and `ref_seq` equals that sequence
number), the flush test as written — `(count != 0 && ts-overflow) ||
seq-overflow` under Rust precedence — produces exactly the same encoder
output as the fully guarded `count != 0 && (ts-overflow || seq-overflow)`. -/
theorem precedence_equiv (u0 : Update) (tl : List Update)
    (hseq : u0.seq ≤ 65280) (hlen : (u0 :: tl).length ≤ 65535) :
    write_main (u0 :: tl) = write_main_guarded (u0 :: tl) := by
  simp only [write_main, write_main_guarded, Option.some.injEq]
  simp only [write_main_loop, write_main_guarded_loop]
  rw [if_neg (by
    push_neg
    exact ⟨fun hcontra => absurd rfl hcontra, by omega⟩)]
  rw [if_neg (by
    rintro ⟨hc, _⟩
    exact hc rfl)]
  refine loops_eq tl u0.ts u0.seq ((0 + 1) % 65536) _ (by norm_num) ?_
  simp only [List.length_cons] at hlen
  omega

/-- Witness for the amended C9. -/
theorem precedence_equiv_witness :
    write_main [⟨5, 7, false, false, 0, 0⟩, ⟨9, 8, true, true, 1, 2⟩] =
      write_main_guarded [⟨5, 7, false, false, 0, 0⟩, ⟨9, 8, true, true, 1, 2⟩] :=
  precedence_equiv ⟨5, 7, false, false, 0, 0⟩ [⟨9, 8, true, true, 1, 2⟩]
    (by decide) (by decide)

/-- Claim C10: `encode` on an empty update slice fails — the `ups[0]` access
in `write_main` is out of bounds before any batch is written — while for
every non-empty slice (and accepted symbol) the first-element accesses
succeed and encoding returns a value, so the indexing failure is unreachable
under the non-emptiness precondition. -/
theorem encode_empty_guard :
    (∀ sym : List Nat, encode sym ([] : List Update) = none) ∧
    write_main ([] : List Update) = none ∧
    (∀ (sym : List Nat) (u : Update) (rest : List Update),
      sym.length ≤ 9 → (encode sym (u :: rest)).isSome = true) ∧
    (∀ (u : Update) (rest : List Update), (write_main (u :: rest)).isSome = true) := by
  refine ⟨?_, rfl, ?_, fun u rest => rfl⟩
  · intro sym
    unfold encode
    cases hws : write_symbol sym <;> rfl
  · intro sym u rest hle
    have hws : write_symbol sym = some (sym ++ List.replicate (9 - sym.length) 32) := by
      unfold write_symbol
      rw [if_pos hle]
    unfold encode
    rw [hws]
    rfl

/-- Witness for C10. -/
theorem encode_empty_guard_witness :
    encode [] ([] : List Update) = none ∧
    (encode [] [⟨0, 0, false, false, 0, 0⟩]).isSome = true :=
  ⟨encode_empty_guard.1 [],
   encode_empty_guard.2.2.1 [] ⟨0, 0, false, false, 0, 0⟩ [] (by decide)⟩
end DTF
